import Mathlib

/-!
Shallow embedding of the LWE-based homomorphic encryption engine of the
repository (class EnhancedLWEBasedFHE in encryption/he_lwe.py): key
generation, bit-wise encryption and decryption, homomorphic addition and
multiplication, and the bootstrap / key-switch procedure.

Modelling conventions: numpy integer (or integer-valued float) arrays are
lists of naturals holding canonical residues; the Gaussian and uniform
samplers are modelled by explicit streams of already-sampled values passed
as arguments (a rounded Gaussian draw is an arbitrary integer, reduced
mod q exactly where the source reduces it); the Python floor-mod of a
possibly negative integer is Int.emod; fallible numpy addition returns an
Option.
-/

/-- Fuel-driven floor base-2 logarithm. The value log2fuel n n is the
floor of log2 n, the value of int(np.log2(n)) computed by the source for
the modulus sizes in scope. -/
def log2fuel : ℕ → ℕ → ℕ
  | 0, _ => 0
  | f + 1, n => if n < 2 then 0 else log2fuel f (n / 2) + 1

/-- Number of binary-decomposition bit positions used by the source, the
expression int(np.log2(q)) + 1 appearing in _generate_evaluation_key and
in _key_switch. -/
def numBits (q : ℕ) : ℕ := log2fuel q q + 1

/-- Mirrors the PublicParams dataclass. The field std_dev only
parameterizes the Gaussian sampler, which is modelled by explicit streams,
so it is not carried here. -/
structure PublicParams where
  n : ℕ
  q : ℕ
  t : ℕ
  scale : ℕ
  bootstrap_precision : ℕ

/-- Mirrors EnhancedLWEBasedFHE.__init__, which derives scale = q // t.
Field order: n, q, t, scale, bootstrap_precision. -/
def mkParams (n q t bp : ℕ) : PublicParams := ⟨n, q, t, q / t, bp⟩

/-- Mirrors the KeyBundle dataclass; public_key is the pair (A, b). -/
structure KeyBundle where
  secret_key : List ℕ
  public_key : List (List ℕ) × List ℕ
  eval_key : List (List (List ℕ))
  bootstrap_key : List (List ℕ)

/-- Mirrors add_ciphertexts, whose body is return (ct1 + ct2) % q on numpy
one-dimensional arrays: equal lengths add pointwise, a length-one operand
is broadcast across the other, and any other length mismatch raises
(modelled as none). -/
def addCiphertexts (q : ℕ) (ct1 ct2 : List ℕ) : Option (List ℕ) :=
  if ct1.length = ct2.length then
    some (List.zipWith (fun a b => (a + b) % q) ct1 ct2)
  else if ct1.length = 1 then
    some (ct2.map (fun b => (ct1.headD 0 + b) % q))
  else if ct2.length = 1 then
    some (ct1.map (fun a => (a + ct2.headD 0) % q))
  else none

/-- Mirrors _generate_evaluation_key. The stream evR i j k is the k-th
entry of the uniform vector drawn for row i and bit position j; the
Gaussian error vector the source draws at each (i, j) is never used there
and is omitted. The slice the source stores at eval_key[i, :, j] is the
list at index pair (i, j) here. -/
def genEvalKey (q n : ℕ) (evR : ℕ → ℕ → ℕ → ℕ) (s : List ℕ) : List (List (List ℕ)) :=
  (List.range n).map (fun i =>
    (List.range (numBits q)).map (fun j =>
      (List.range n).map (fun k =>
        (evR i j k + 2 ^ j * s.getD i 0 * s.getD k 0) % q)))

/-- Mirrors _generate_bootstrap_key; bsR i k is the k-th entry of the
uniform vector for row i (the unused Gaussian draw is again omitted). -/
def genBootstrapKey (q n scale : ℕ) (bsR : ℕ → ℕ → ℕ) (s : List ℕ) : List (List ℕ) :=
  (List.range n).map (fun i =>
    (List.range n).map (fun k =>
      (bsR i k + scale * s.getD i 0 * s.getD k 0) % q))

/-- Mirrors generate_keys. The streams are: sR the uniform bits of the
secret key, AR the uniform matrix A, eR the rounded Gaussian noise of b
(arbitrary integers, reduced mod q exactly as np.round(e) % q is), evR
and bsR the uniform vectors of the evaluation and bootstrap keys. -/
def generateKeys (P : PublicParams) (sR : ℕ → ℕ) (AR : ℕ → ℕ → ℕ) (eR : ℕ → ℤ)
    (evR : ℕ → ℕ → ℕ → ℕ) (bsR : ℕ → ℕ → ℕ) : KeyBundle :=
  let s := (List.range P.n).map sR
  let A := (List.range P.n).map (fun i => (List.range P.n).map (AR i))
  let b := (List.range P.n).map (fun k =>
    (((List.range P.n).map (fun i => (A.getD k []).getD i 0 * s.getD i 0)).sum
      + ((eR k) % (P.q : ℤ)).toNat) % P.q)
  ⟨s, (A, b), genEvalKey P.q P.n evR s, genBootstrapKey P.q P.n P.scale bsR s⟩

/-- Mirrors the digit count of format(c, '08b'): at least 8 binary digits,
more when the character code needs them. -/
def fmtLen (c : ℕ) : ℕ := max 8 (if c = 0 then 1 else log2fuel c c + 1)

/-- Mirrors format(ord(c), '08b') as a big-endian list of bits. -/
def format08b (c : ℕ) : List ℕ :=
  (List.range (fmtLen c)).map (fun j => c / 2 ^ (fmtLen c - 1 - j) % 2)

/-- Mirrors the binary string built by encrypt: the concatenation of the
big-endian encodings of the message character codes. -/
def msgBits (M : List ℕ) : List ℕ := (M.map format08b).flatten

/-- Dot product of two numpy integer vectors of equal length. -/
def dotN (u s : List ℕ) : ℕ := (List.zipWith (fun a b => a * b) u s).sum

/-- Mirrors the body of the per-bit loop of encrypt: the LWE encryption
(r A + e1 mod q, r b + e2 + scale m mod q) of one bit m, for one draw of
the Gaussian noises e1, e2 and of the binary vector r. -/
def lweEncryptBit (P : PublicParams) (A : List (List ℕ)) (b : List ℕ)
    (e1 : ℕ → ℤ) (e2 : ℤ) (r : ℕ → ℕ) (m : ℕ) : List ℕ :=
  let u := (List.range P.n).map (fun k =>
    (((List.range P.n).map (fun i => r i * (A.getD i []).getD k 0)).sum
      + ((e1 k) % (P.q : ℤ)).toNat) % P.q)
  let v := (((List.range P.n).map (fun i => r i * b.getD i 0)).sum
      + (e2 % (P.q : ℤ)).toNat + P.scale * m) % P.q
  u ++ [v]

/-- Mirrors encrypt: one LWE ciphertext per message bit, in message-bit
order, with fresh randomness (streamed by bit index) for every bit. -/
def encrypt (P : PublicParams) (A : List (List ℕ)) (b : List ℕ)
    (e1R : ℕ → ℕ → ℤ) (e2R : ℕ → ℤ) (rR : ℕ → ℕ → ℕ) (M : List ℕ) : List (List ℕ) :=
  let bits := msgBits M
  (List.range bits.length).map (fun i =>
    lweEncryptBit P A b (e1R i) (e2R i) (rR i) (bits.getD i 0))

/-- Mirrors the Python built-in round applied to the exact quotient a / b
for positive b: nearest integer, ties going to the even neighbour. -/
def pyRoundDiv (a b : ℤ) : ℤ :=
  let f := a.fdiv b
  let r := a - f * b
  if 2 * r < b then f
  else if b < 2 * r then f + 1
  else if f % 2 = 0 then f else f + 1

/-- Mirrors the per-ciphertext step of decrypt: noise = (v - u . s) mod q
and bit = round(noise * t / q) % t. -/
def decryptBit (P : PublicParams) (s ct : List ℕ) : ℕ :=
  let u := ct.dropLast
  let v := (ct.getLast?.getD 0 : ℤ)
  let noise := (v - (dotN u s : ℤ)) % (P.q : ℤ)
  ((pyRoundDiv (noise * P.t) P.q) % (P.t : ℤ)).toNat

/-- Mirrors int(byte, 2) on a big-endian binary digit string. -/
def byteVal (l : List ℕ) : ℕ := l.foldl (fun a d => 2 * a + d) 0

/-- Mirrors the final loop of decrypt: walk the recovered bit list eight
entries at a time, decode every complete byte, drop a trailing incomplete
group. -/
def toBytes : List ℕ → List ℕ
  | b0 :: b1 :: b2 :: b3 :: b4 :: b5 :: b6 :: b7 :: rest =>
      byteVal [b0, b1, b2, b3, b4, b5, b6, b7] :: toBytes rest
  | _ => []

/-- Mirrors decrypt. -/
def decrypt (P : PublicParams) (s : List ℕ) (cts : List (List ℕ)) : List ℕ :=
  toBytes (cts.map (fun ct => decryptBit P s ct))

/-- Mirrors _key_switch: binary-decompose the accumulator (least
significant bit first, numBits q bit positions per entry) and add the
selected evaluation-key slices into the first n coordinates mod q; the
scaled scalar becomes the last coordinate. -/
def keySwitch (q n : ℕ) (evalKey : List (List (List ℕ))) (acc : List ℕ)
    (vScaled : ℕ) : List ℕ :=
  let bits := numBits q
  let front := (List.range n).foldl (fun res i =>
    (List.range bits).foldl (fun res j =>
      if acc.getD i 0 / 2 ^ j % 2 = 1 then
        List.zipWith (fun a b => (a + b) % q) res ((evalKey.getD i []).getD j [])
      else res) res) (List.replicate n 0)
  front ++ [vScaled]

/-- Mirrors bootstrap: scale both ciphertext parts down to
bootstrap_precision bits, accumulate the scaled bootstrap-key rows through
add_ciphertexts, then key-switch. -/
def bootstrap (P : PublicParams) (K : KeyBundle) (ct : List ℕ) : List ℕ :=
  let u := ct.dropLast
  let v := ct.getLast?.getD 0
  let sf := 2 ^ P.bootstrap_precision
  let uScaled := u.map (fun x => x * sf / P.q % sf)
  let vScaled := v * sf / P.q % sf
  let acc := (List.range P.n).foldl (fun a i =>
    if uScaled.getD i 0 ≠ 0 then
      (addCiphertexts P.q a
        ((K.bootstrap_key.getD i []).map (fun x => x * uScaled.getD i 0 % P.q))).getD a
    else a) (List.replicate P.n 0)
  keySwitch P.q P.n K.eval_key acc vScaled

/-- Mirrors the tensor-product step of multiply_ciphertexts: the row-major
flattened outer product with entries reduced mod q. -/
def tensorFlatten (q : ℕ) (ct1 ct2 : List ℕ) : List ℕ :=
  (ct1.map (fun a => ct2.map (fun b => a * b % q))).flatten

/-- Mirrors multiply_ciphertexts: tensor product followed unconditionally
by bootstrap. -/
def multiplyCiphertexts (P : PublicParams) (K : KeyBundle) (ct1 ct2 : List ℕ) : List ℕ :=
  bootstrap P K (tensorFlatten P.q ct1 ct2)

/-- Centered representative, in the interval from -q/2 exclusive to q/2
inclusive, of a residue d in [0, q). -/
def center (q d : ℕ) : ℤ := if 2 * d ≤ q then (d : ℤ) else (d : ℤ) - q

/-- Accumulated noise of a ciphertext with respect to message bit m and
secret key s: the centered value of ((v - u . s) - scale * m) mod q. -/
def noiseOf (q scale : ℕ) (s ct : List ℕ) (m : ℕ) : ℤ :=
  center q (((ct.getLast?.getD 0 : ℤ) - (dotN ct.dropLast s : ℤ)
    - (scale * m : ℕ)) % (q : ℤ)).toNat

/-- Shape well-formedness of a KeyBundle, as the data model fixes it: an
n by n bootstrap-key matrix and an n by numBits q by n evaluation-key
tensor. -/
def KBWF (P : PublicParams) (K : KeyBundle) : Prop :=
  K.bootstrap_key.length = P.n ∧ (∀ row ∈ K.bootstrap_key, row.length = P.n) ∧
  K.eval_key.length = P.n ∧
  (∀ mat ∈ K.eval_key, mat.length = numBits P.q ∧ ∀ row ∈ mat, row.length = P.n)

/-! Generic list helpers. -/

/-- Invariants are preserved through foldl. -/
theorem foldl_preserve {α β : Type} (Q : β → Prop) (f : β → α → β) :
    ∀ (l : List α) (b : β), Q b → (∀ x a, a ∈ l → Q x → Q (f x a)) →
      Q (List.foldl f b l) := by
  intro l
  induction l with
  | nil => intro b hb _; exact hb
  | cons a l ih =>
    intro b hb hf
    exact ih (f b a) (hf b a (by simp) hb) (fun x a' ha' hx => hf x a' (by simp [ha']) hx)

/-- Two foldl runs agree when the step functions agree on the traversed
elements. -/
theorem foldl_congr_mem {α β : Type} (f g : β → α → β) :
    ∀ (l : List α) (b : β), (∀ x a, a ∈ l → f x a = g x a) →
      List.foldl f b l = List.foldl g b l := by
  intro l
  induction l with
  | nil => intro b _; rfl
  | cons a l ih =>
    intro b h
    simp only [List.foldl_cons]
    rw [h b a (by simp)]
    exact ih (g b a) (fun x a' ha' => h x a' (by simp [ha']))

/-- Every element of a zipWith satisfies any property enjoyed by all
images of the zipping function. -/
theorem mem_zipWith_prop {α β γ : Type} {Q : γ → Prop} (f : α → β → γ)
    (h : ∀ a b, Q (f a b)) :
    ∀ (l1 : List α) (l2 : List β), ∀ x ∈ List.zipWith f l1 l2, Q x := by
  intro l1
  induction l1 with
  | nil => intro l2 x hx; simp at hx
  | cons a l1 ih =>
    intro l2 x hx
    cases l2 with
    | nil => simp at hx
    | cons b l2 =>
      simp only [List.zipWith_cons_cons, List.mem_cons] at hx
      rcases hx with rfl | hx
      · exact h a b
      · exact ih l2 x hx

/-! Characterization of the fuel-driven floor logarithm. -/

/-- Upper characterization: n is below 2 to the power log2fuel n + 1. -/
theorem log2fuel_upper : ∀ (f n : ℕ), n ≤ f → n < 2 ^ (log2fuel f n + 1) := by
  intro f
  induction f with
  | zero =>
    intro n hn
    have h0 : n = 0 := by omega
    subst h0
    decide
  | succ f ih =>
    intro n hn
    by_cases h2 : n < 2
    · simp only [log2fuel, if_pos h2]
      omega
    · have hrec : n / 2 ≤ f := by omega
      have hih := ih (n / 2) hrec
      simp only [log2fuel, if_neg h2]
      have hp : 2 ^ (log2fuel f (n / 2) + 1 + 1) = 2 * 2 ^ (log2fuel f (n / 2) + 1) := by
        ring
      omega

/-- Lower characterization: 2 to the power log2fuel n is at most n. -/
theorem log2fuel_lower : ∀ (f n : ℕ), 1 ≤ n → n ≤ f → 2 ^ log2fuel f n ≤ n := by
  intro f
  induction f with
  | zero => intro n h1 h2; omega
  | succ f ih =>
    intro n h1 hn
    by_cases h2 : n < 2
    · simp only [log2fuel, if_pos h2]
      omega
    · have hrec : n / 2 ≤ f := by omega
      have hih := ih (n / 2) (by omega) hrec
      simp only [log2fuel, if_neg h2]
      have hp : 2 ^ (log2fuel f (n / 2) + 1) = 2 * 2 ^ log2fuel f (n / 2) := by ring
      omega

/-! Codec lemmas. -/

/-- Range of length eight, written out. -/
theorem range_eight : List.range 8 = [0, 1, 2, 3, 4, 5, 6, 7] := by decide

/-- Character codes below 256 are encoded on exactly 8 digits. -/
theorem fmtLen_eq_8 (c : ℕ) (hc : c < 256) : fmtLen c = 8 := by
  unfold fmtLen
  by_cases h0 : c = 0
  · simp [h0]
  · have h1 : 1 ≤ c := Nat.pos_of_ne_zero h0
    have hlow := log2fuel_lower c c h1 le_rfl
    have hle : log2fuel c c ≤ 7 := by
      by_contra hgt
      have h8 : 8 ≤ log2fuel c c := by omega
      have hpow : (2 : ℕ) ^ 8 ≤ 2 ^ log2fuel c c := Nat.pow_le_pow_right (by norm_num) h8
      omega
    simp only [if_neg h0]
    omega

/-- Length of the encoding of one character. -/
theorem format08b_length (c : ℕ) (hc : c < 256) : (format08b c).length = 8 := by
  simp [format08b, fmtLen_eq_8 c hc]

/-- Explicit form of the 8-bit big-endian encoding. -/
theorem format08b_eq (c : ℕ) (hc : c < 256) :
    format08b c = [c / 128 % 2, c / 64 % 2, c / 32 % 2, c / 16 % 2,
      c / 8 % 2, c / 4 % 2, c / 2 % 2, c % 2] := by
  unfold format08b
  rw [fmtLen_eq_8 c hc, range_eight]
  norm_num

/-- Value of int(byte, 2) on eight digits. -/
theorem byteVal_eight (b0 b1 b2 b3 b4 b5 b6 b7 : ℕ) :
    byteVal [b0, b1, b2, b3, b4, b5, b6, b7] =
      128 * b0 + 64 * b1 + 32 * b2 + 16 * b3 + 8 * b4 + 4 * b5 + 2 * b6 + b7 := by
  simp [byteVal]
  ring

/-- Decoding the encoding of a character below 256 gives it back. -/
theorem byteVal_format08b (c : ℕ) (hc : c < 256) : byteVal (format08b c) = c := by
  rw [format08b_eq c hc, byteVal_eight]
  omega

/-- Bit list of a message with a leading character. -/
theorem msgBits_cons (c : ℕ) (M : List ℕ) :
    msgBits (c :: M) = format08b c ++ msgBits M := by
  simp [msgBits]

/-- Bit count of a message of characters below 256. -/
theorem msgBits_length (M : List ℕ) (hM : ∀ c ∈ M, c < 256) :
    (msgBits M).length = 8 * M.length := by
  induction M with
  | nil => rfl
  | cons c M ih =>
    rw [msgBits_cons]
    simp only [List.length_append, List.length_cons]
    rw [ih (fun x hx => hM x (by simp [hx])), format08b_length c (hM c (by simp))]
    ring

/-- Message bits are binary. -/
theorem msgBits_lt_two (M : List ℕ) : ∀ x ∈ msgBits M, x < 2 := by
  intro x hx
  simp only [msgBits, List.mem_flatten, List.mem_map] at hx
  obtain ⟨l, ⟨c, _, rfl⟩, hxl⟩ := hx
  simp only [format08b, List.mem_map, List.mem_range] at hxl
  obtain ⟨j, _, rfl⟩ := hxl
  exact Nat.mod_lt _ (by norm_num)

/-! Lemmas about toBytes. -/

/-- Unfolding of toBytes on eight leading entries. -/
theorem toBytes_cons8 (b0 b1 b2 b3 b4 b5 b6 b7 : ℕ) (rest : List ℕ) :
    toBytes (b0 :: b1 :: b2 :: b3 :: b4 :: b5 :: b6 :: b7 :: rest) =
      byteVal [b0, b1, b2, b3, b4, b5, b6, b7] :: toBytes rest := rfl

/-- Short bit lists decode to nothing. -/
theorem toBytes_short (l : List ℕ) (h : l.length < 8) : toBytes l = [] := by
  rcases l with _ | ⟨b0, _ | ⟨b1, _ | ⟨b2, _ | ⟨b3, _ | ⟨b4, _ | ⟨b5, _ | ⟨b6, _ | ⟨b7, rest⟩⟩⟩⟩⟩⟩⟩⟩ <;>
    first
      | rfl
      | (exfalso
         simp only [List.length_cons, List.length_nil] at h
         omega)

/-- Character count of the decoded text. -/
theorem toBytes_length (l : List ℕ) : (toBytes l).length = l.length / 8 := by
  suffices H : ∀ (N : ℕ) (l : List ℕ), l.length ≤ N → (toBytes l).length = l.length / 8 from
    H l.length l le_rfl
  intro N
  induction N with
  | zero =>
    intro l hl
    rw [toBytes_short l (by omega)]
    simp only [List.length_nil]
    omega
  | succ N ih =>
    intro l hl
    rcases l with _ | ⟨b0, _ | ⟨b1, _ | ⟨b2, _ | ⟨b3, _ | ⟨b4, _ | ⟨b5, _ | ⟨b6, _ | ⟨b7, rest⟩⟩⟩⟩⟩⟩⟩⟩ <;>
      first
        | (show ([] : List ℕ).length = _
           simp)
        | (rw [toBytes_cons8]
           simp only [List.length_cons]
           rw [ih rest (by simp only [List.length_cons] at hl; omega)]
           omega)

/-- Decoded characters, eight source bits at a time. -/
theorem toBytes_getD (l : List ℕ) (j : ℕ) (hj : 8 * j + 8 ≤ l.length) :
    (toBytes l).getD j 0 =
      128 * l.getD (8 * j) 0 + 64 * l.getD (8 * j + 1) 0 + 32 * l.getD (8 * j + 2) 0 +
      16 * l.getD (8 * j + 3) 0 + 8 * l.getD (8 * j + 4) 0 + 4 * l.getD (8 * j + 5) 0 +
      2 * l.getD (8 * j + 6) 0 + l.getD (8 * j + 7) 0 := by
  induction j generalizing l with
  | zero =>
    rcases l with _ | ⟨b0, _ | ⟨b1, _ | ⟨b2, _ | ⟨b3, _ | ⟨b4, _ | ⟨b5, _ | ⟨b6, _ | ⟨b7, rest⟩⟩⟩⟩⟩⟩⟩⟩ <;>
      first
        | (exfalso
           simp only [List.length_cons, List.length_nil] at hj
           omega)
        | (rw [toBytes_cons8]
           show byteVal [b0, b1, b2, b3, b4, b5, b6, b7] = _
           rw [byteVal_eight]
           rfl)
  | succ j ih =>
    rcases l with _ | ⟨b0, _ | ⟨b1, _ | ⟨b2, _ | ⟨b3, _ | ⟨b4, _ | ⟨b5, _ | ⟨b6, _ | ⟨b7, rest⟩⟩⟩⟩⟩⟩⟩⟩
    · exfalso; simp at hj
    · exfalso; simp at hj
    · exfalso; simp at hj
    · exfalso; simp at hj
    · exfalso; simp at hj
    · exfalso; simp at hj
    · exfalso; simp at hj
    · exfalso; simp at hj
    · rw [toBytes_cons8]
      simp only [List.getD_cons_succ]
      rw [ih rest (by simp only [List.length_cons] at hj; omega)]
      rw [(by ring : 8 * (j + 1) = 8 * j + 8)]
      rfl

/-- Decoding the bit list of a message of characters below 256 restores
the message. -/
theorem toBytes_msgBits (M : List ℕ) (hM : ∀ c ∈ M, c < 256) :
    toBytes (msgBits M) = M := by
  induction M with
  | nil => rfl
  | cons c M ih =>
    have hc : c < 256 := hM c (by simp)
    rw [msgBits_cons, format08b_eq c hc]
    simp only [List.cons_append, List.nil_append]
    rw [toBytes_cons8, byteVal_eight]
    rw [ih (fun x hx => hM x (by simp [hx]))]
    congr 1
    omega

/-! Integer division helpers and the rounding bridge. -/

/-- Floor division recovers the quotient of an explicit decomposition. -/
theorem fdiv_decomp (b c s a : ℤ) (hb : 0 < b) (hs0 : 0 ≤ s) (hsb : s < b)
    (ha : a = s + b * c) : a.fdiv b = c := by
  rw [Int.fdiv_eq_ediv a hb.le, ha, Int.add_mul_ediv_left s c (by omega),
    Int.ediv_eq_zero_of_lt hs0 hsb, zero_add]

/-- Euclidean remainder recovers the residue of an explicit
decomposition. -/
theorem emod_decomp (b c s a : ℤ) (hs0 : 0 ≤ s) (hsb : s < b)
    (ha : a = s + b * c) : a % b = s := by
  rw [ha, Int.add_mul_emod_self_left, Int.emod_eq_of_lt hs0 hsb]

/-- With an odd positive divisor no rounding tie can arise, and the Python
rounding of a / q is the floor of (2 a + q) / (2 q). -/
theorem pyRoundDiv_odd (q a : ℤ) (hq : 0 < q) (hodd : q % 2 = 1) :
    pyRoundDiv a q = (2 * a + q).fdiv (2 * q) := by
  have hfe : a.fdiv q = a / q := Int.fdiv_eq_ediv a hq.le
  have hr : a - a / q * q = a % q := by rw [Int.emod_def]; ring
  have hr0 : 0 ≤ a % q := Int.emod_nonneg a (by omega)
  have hrq : a % q < q := Int.emod_lt_of_pos a hq
  have hrdef : a = a % q + q * (a / q) := by rw [Int.emod_def]; ring
  simp only [pyRoundDiv]
  rw [hfe, hr]
  by_cases h1 : 2 * (a % q) < q
  · rw [if_pos h1]
    exact (fdiv_decomp (2 * q) (a / q) (2 * (a % q) + q) (2 * a + q) (by omega)
      (by omega) (by omega) (by linear_combination 2 * hrdef)).symm
  · rw [if_neg h1]
    have h2 : q < 2 * (a % q) := by omega
    rw [if_pos h2]
    exact (fdiv_decomp (2 * q) (a / q + 1) (2 * (a % q) - q) (2 * a + q) (by omega)
      (by omega) (by omega) (by linear_combination 2 * hrdef)).symm

/-- Correct decryption of a single bit: whenever the accumulated noise of
the ciphertext with respect to the embedded bit m is small enough, the
rounding step of decrypt recovers m exactly (for the binary plaintext
modulus and an odd ciphertext modulus, whose scale is q / 2). -/
theorem decryptBit_correct (P : PublicParams) (scale : ℕ) (s ct : List ℕ) (m : ℕ)
    (ht : P.t = 2) (hsc : 2 * scale + 1 = P.q) (hm : m < 2)
    (hnz : (2 * (noiseOf P.q scale s ct m).natAbs + 1) * 2 < P.q) :
    decryptBit P s ct = m := by
  have hq3 : 3 ≤ P.q := by omega
  have hqz : (0 : ℤ) < (P.q : ℤ) := by omega
  have hoddz : (P.q : ℤ) % 2 = 1 := by omega
  rcases (by omega : m = 0 ∨ m = 1) with rfl | rfl
  · simp only [decryptBit, noiseOf, center, Nat.mul_zero, Nat.cast_zero, sub_zero,
      ht, Nat.cast_ofNat] at hnz ⊢
    set z := (ct.getLast?.getD 0 : ℤ) - (dotN ct.dropLast s : ℤ) with hzdef
    set Y := z % (P.q : ℤ) with hYdef
    have hY0 : 0 ≤ Y := Int.emod_nonneg z (by omega)
    have hYq : Y < (P.q : ℤ) := Int.emod_lt_of_pos z hqz
    have hYc : ((Y.toNat : ℤ)) = Y := Int.toNat_of_nonneg hY0
    rw [hYc] at hnz
    rw [pyRoundDiv_odd (P.q : ℤ) (Y * 2) hqz hoddz]
    by_cases hcase : 2 * Y.toNat ≤ P.q
    · rw [if_pos hcase] at hnz
      rw [fdiv_decomp (2 * (P.q : ℤ)) 0 (2 * (Y * 2) + (P.q : ℤ)) (2 * (Y * 2) + (P.q : ℤ))
        (by omega) (by omega) (by omega) (by ring)]
      rfl
    · rw [if_neg hcase] at hnz
      rw [fdiv_decomp (2 * (P.q : ℤ)) 2 (4 * Y - 3 * (P.q : ℤ)) (2 * (Y * 2) + (P.q : ℤ))
        (by omega) (by omega) (by omega) (by ring)]
      rfl
  · simp only [decryptBit, noiseOf, center, Nat.mul_one, ht, Nat.cast_ofNat] at hnz ⊢
    set z := (ct.getLast?.getD 0 : ℤ) - (dotN ct.dropLast s : ℤ) with hzdef
    set Y := (z - (scale : ℤ)) % (P.q : ℤ) with hYdef
    have hY0 : 0 ≤ Y := Int.emod_nonneg (z - (scale : ℤ)) (by omega)
    have hYq : Y < (P.q : ℤ) := Int.emod_lt_of_pos (z - (scale : ℤ)) hqz
    have hYc : ((Y.toNat : ℤ)) = Y := Int.toNat_of_nonneg hY0
    have hscz : 2 * (scale : ℤ) + 1 = (P.q : ℤ) := by exact_mod_cast hsc
    have hzY : z - (scale : ℤ) = Y + (P.q : ℤ) * ((z - (scale : ℤ)) / (P.q : ℤ)) := by
      rw [hYdef, Int.emod_def]
      ring
    rw [hYc] at hnz
    by_cases hcase : 2 * Y.toNat ≤ P.q
    · rw [if_pos hcase] at hnz
      have hD : z % (P.q : ℤ) = Y + (scale : ℤ) :=
        emod_decomp (P.q : ℤ) ((z - (scale : ℤ)) / (P.q : ℤ)) (Y + (scale : ℤ)) z
          (by omega) (by omega) (by linear_combination hzY)
      rw [hD, pyRoundDiv_odd (P.q : ℤ) ((Y + (scale : ℤ)) * 2) hqz hoddz]
      rw [fdiv_decomp (2 * (P.q : ℤ)) 1 (4 * Y + (P.q : ℤ) - 2)
        (2 * ((Y + (scale : ℤ)) * 2) + (P.q : ℤ))
        (by omega) (by omega) (by omega) (by linear_combination 2 * hscz)]
      rfl
    · rw [if_neg hcase] at hnz
      have hD : z % (P.q : ℤ) = Y + (scale : ℤ) - (P.q : ℤ) :=
        emod_decomp (P.q : ℤ) ((z - (scale : ℤ)) / (P.q : ℤ) + 1)
          (Y + (scale : ℤ) - (P.q : ℤ)) z
          (by omega) (by omega) (by linear_combination hzY)
      rw [hD, pyRoundDiv_odd (P.q : ℤ) ((Y + (scale : ℤ) - (P.q : ℤ)) * 2) hqz hoddz]
      rw [fdiv_decomp (2 * (P.q : ℤ)) 1 (4 * Y - 3 * (P.q : ℤ) - 2)
        (2 * ((Y + (scale : ℤ) - (P.q : ℤ)) * 2) + (P.q : ℤ))
        (by omega) (by omega) (by omega) (by linear_combination 2 * hscz)]
      rfl

/-! Message-bit indexing and encrypt structure. -/

/-- Indexing into the flattened list of 8-bit encodings. -/
theorem msgBits_getD (M : List ℕ) (hM : ∀ c ∈ M, c < 256) (i : ℕ)
    (hi : i < 8 * M.length) :
    (msgBits M).getD i 0 = M.getD (i / 8) 0 / 2 ^ (7 - i % 8) % 2 := by
  induction M generalizing i with
  | nil => simp at hi
  | cons c M ih =>
    have hc : c < 256 := hM c (by simp)
    rw [msgBits_cons]
    by_cases h8 : i < 8
    · rw [List.getD_append _ _ _ _ (by rw [format08b_length c hc]; omega)]
      rw [format08b_eq c hc]
      have h0 : i / 8 = 0 := by omega
      have h1 : i % 8 = i := by omega
      rw [h0, h1]
      simp only [List.getD_cons_zero]
      interval_cases i <;> norm_num [List.getD_cons_succ, List.getD_cons_zero]
    · rw [List.getD_append_right _ _ _ _ (by rw [format08b_length c hc]; omega)]
      rw [format08b_length c hc]
      rw [ih (fun x hx => hM x (by simp [hx])) (i - 8)
        (by simp only [List.length_cons] at hi; omega)]
      have h2 : i / 8 = (i - 8) / 8 + 1 := by omega
      have h3 : i % 8 = (i - 8) % 8 := by omega
      rw [h2, h3]
      simp only [List.getD_cons_succ]

/-- Length of the ciphertext stream produced by encrypt. -/
theorem encrypt_length (P : PublicParams) (A : List (List ℕ)) (b : List ℕ)
    (e1R : ℕ → ℕ → ℤ) (e2R : ℕ → ℤ) (rR : ℕ → ℕ → ℕ) (M : List ℕ) :
    (encrypt P A b e1R e2R rR M).length = (msgBits M).length := by
  simp [encrypt]

/-- The i-th ciphertext of the stream encrypts the i-th message bit with
the i-th draw of randomness. -/
theorem encrypt_getD (P : PublicParams) (A : List (List ℕ)) (b : List ℕ)
    (e1R : ℕ → ℕ → ℤ) (e2R : ℕ → ℤ) (rR : ℕ → ℕ → ℕ) (M : List ℕ) (i : ℕ)
    (hi : i < (msgBits M).length) :
    (encrypt P A b e1R e2R rR M).getD i [] =
      lweEncryptBit P A b (e1R i) (e2R i) (rR i) ((msgBits M).getD i 0) := by
  simp only [encrypt]
  rw [List.getD_eq_getElem _ _ (by simpa using hi)]
  simp

/-- A single-bit LWE ciphertext has length n + 1. -/
theorem lweEncryptBit_length (P : PublicParams) (A : List (List ℕ)) (b : List ℕ)
    (e1 : ℕ → ℤ) (e2 : ℤ) (r : ℕ → ℕ) (m : ℕ) :
    (lweEncryptBit P A b e1 e2 r m).length = P.n + 1 := by
  simp [lweEncryptBit]

/-- Entries of a single-bit LWE ciphertext are canonical residues. -/
theorem lweEncryptBit_entries (P : PublicParams) (A : List (List ℕ)) (b : List ℕ)
    (e1 : ℕ → ℤ) (e2 : ℤ) (r : ℕ → ℕ) (m : ℕ) (hq : 0 < P.q) :
    ∀ x ∈ lweEncryptBit P A b e1 e2 r m, x < P.q := by
  intro x hx
  simp only [lweEncryptBit, List.mem_append, List.mem_map, List.mem_range,
    List.mem_singleton] at hx
  rcases hx with ⟨k, _, rfl⟩ | rfl <;> exact Nat.mod_lt _ hq

/-! Key-switch and bootstrap structure. -/

/-- Entries of the keySwitch output are canonical residues as soon as the
appended scalar is. -/
theorem keySwitch_entries (q n : ℕ) (ek : List (List (List ℕ))) (acc : List ℕ)
    (v : ℕ) (hq : 0 < q) (hv : v < q) :
    ∀ x ∈ keySwitch q n ek acc v, x < q := by
  intro x hx
  simp only [keySwitch, List.mem_append, List.mem_singleton] at hx
  rcases hx with hx | rfl
  · refine foldl_preserve (fun res => ∀ y ∈ res, y < q) _ (List.range n) _ ?_ ?_ x hx
    · intro y hy
      rw [List.eq_of_mem_replicate hy]
      omega
    · intro res i _ hres
      refine foldl_preserve (fun r2 => ∀ y ∈ r2, y < q) _ (List.range (numBits q))
        res hres ?_
      intro r2 j _ hr2
      by_cases hbit : acc.getD i 0 / 2 ^ j % 2 = 1
      · rw [if_pos hbit]
        exact mem_zipWith_prop (fun a b => (a + b) % q)
          (fun a b => Nat.mod_lt (a + b) hq) _ _
      · rw [if_neg hbit]
        exact hr2
  · exact hv

/-- Length of the keySwitch output on a well-shaped evaluation key. -/
theorem keySwitch_length (q n : ℕ) (ek : List (List (List ℕ))) (acc : List ℕ)
    (v : ℕ) (hek1 : ek.length = n)
    (hek2 : ∀ mat ∈ ek, mat.length = numBits q ∧ ∀ row ∈ mat, row.length = n) :
    (keySwitch q n ek acc v).length = n + 1 := by
  simp only [keySwitch, List.length_append, List.length_singleton]
  have h : ∀ front : List ℕ, front.length = n → front.length + 1 = n + 1 := by omega
  apply h
  refine foldl_preserve (fun res : List ℕ => res.length = n) _ (List.range n) _
    (by simp) ?_
  intro res i hi hres
  refine foldl_preserve (fun r2 : List ℕ => r2.length = n) _ (List.range (numBits q))
    res hres ?_
  intro r2 j hj hr2
  by_cases hbit : acc.getD i 0 / 2 ^ j % 2 = 1
  · rw [if_pos hbit]
    have hin : i < n := by simpa using hi
    have hjn : j < numBits q := by simpa using hj
    have hmat : ek.getD i [] ∈ ek := by
      rw [List.getD_eq_getElem _ _ (by omega)]
      exact List.getElem_mem _
    obtain ⟨hmlen, hrows⟩ := hek2 _ hmat
    have hrow : (ek.getD i []).getD j [] ∈ ek.getD i [] := by
      rw [List.getD_eq_getElem (ek.getD i []) []
        (by omega : j < (ek.getD i []).length)]
      exact List.getElem_mem _
    have hrl := hrows _ hrow
    rw [List.length_zipWith, hr2, hrl]
    omega
  · rw [if_neg hbit]
    exact hr2

/-- Length of the bootstrap output on a well-shaped evaluation key. -/
theorem bootstrap_length (P : PublicParams) (K : KeyBundle) (ct : List ℕ)
    (hek1 : K.eval_key.length = P.n)
    (hek2 : ∀ mat ∈ K.eval_key, mat.length = numBits P.q ∧
      ∀ row ∈ mat, row.length = P.n) :
    (bootstrap P K ct).length = P.n + 1 := by
  simp only [bootstrap]
  exact keySwitch_length P.q P.n K.eval_key _ _ hek1 hek2

/-- Entries of the bootstrap output are canonical residues when the
modulus dominates the bootstrap precision range. -/
theorem bootstrap_entries (P : PublicParams) (K : KeyBundle) (ct : List ℕ)
    (hq : 2 ^ P.bootstrap_precision < P.q) :
    ∀ x ∈ bootstrap P K ct, x < P.q := by
  have hp : 0 < 2 ^ P.bootstrap_precision := by positivity
  simp only [bootstrap]
  refine keySwitch_entries P.q P.n K.eval_key _ _ (by omega) ?_
  exact lt_trans (Nat.mod_lt _ hp) hq

/-- Entries of the flattened tensor product are canonical residues. -/
theorem tensorFlatten_entries (q : ℕ) (hq : 0 < q) (ct1 ct2 : List ℕ) :
    ∀ x ∈ tensorFlatten q ct1 ct2, x < q := by
  intro x hx
  simp only [tensorFlatten, List.mem_flatten, List.mem_map] at hx
  obtain ⟨l, ⟨a, _, rfl⟩, hxl⟩ := hx
  simp only [List.mem_map] at hxl
  obtain ⟨b, _, rfl⟩ := hxl
  exact Nat.mod_lt _ hq

/-- Entries of a successful numpy ciphertext addition are canonical
residues. -/
theorem addCiphertexts_entries (q : ℕ) (hq : 0 < q) (ct1 ct2 res : List ℕ)
    (h : addCiphertexts q ct1 ct2 = some res) : ∀ x ∈ res, x < q := by
  unfold addCiphertexts at h
  split_ifs at h with h1 h2 h3
  · obtain rfl := Option.some.inj h
    exact mem_zipWith_prop (fun a b => (a + b) % q)
      (fun a b => Nat.mod_lt (a + b) hq) ct1 ct2
  · obtain rfl := Option.some.inj h
    intro x hx
    simp only [List.mem_map] at hx
    obtain ⟨b, _, rfl⟩ := hx
    exact Nat.mod_lt _ hq
  · obtain rfl := Option.some.inj h
    intro x hx
    simp only [List.mem_map] at hx
    obtain ⟨a, _, rfl⟩ := hx
    exact Nat.mod_lt _ hq

/-- Reading the scaled vector through dropLast and map at an index below
n sees exactly the corresponding ciphertext entry. -/
theorem getD_map_dropLast (f : ℕ → ℕ) (l : List ℕ) (i : ℕ) (hi : i + 1 < l.length) :
    (l.dropLast.map f).getD i 0 = f (l.getD i 0) := by
  have h1 : i < l.dropLast.length := by rw [List.length_dropLast]; omega
  rw [List.getD_eq_getElem _ _ (by simpa using h1), List.getElem_map,
    List.getElem_dropLast, List.getD_eq_getElem _ _ (by omega)]

/-- Defaulted indexing of a map over a range below the bound. -/
theorem getD_map_range {α : Type} (f : ℕ → α) (d : α) (n i : ℕ) (hi : i < n) :
    ((List.range n).map f).getD i d = f i := by
  rw [List.getD_eq_getElem ((List.range n).map f) d (by simpa using hi)]
  simp

/-! Claim theorems. -/

/-- C2 (counterexample): the claim predicts ceil(log2 q) + 1 slices per
evaluation-key row; at the default modulus 40961 the code builds
int(log2 40961) + 1 = 16 slices, while ceil(log2 40961) + 1 = 17 (the two
power facts pin ceil(log2 40961) at 16, since 2^15 < 40961 <= 2^16). -/
theorem C2_counterexample :
    ((genEvalKey 40961 1 (fun _ _ _ => 0) [1]).getD 0 []).length = 16 ∧
    2 ^ 15 < 40961 ∧ 40961 ≤ 2 ^ 16 ∧
    ((genEvalKey 40961 1 (fun _ _ _ => 0) [1]).getD 0 []).length ≠ 17 := by
  refine ⟨by decide, by decide, by decide, by decide⟩

/-- C2 (amended): generate_keys builds the evaluation key with n rows of
floor(log2 q) + 1 slices each, n (floor(log2 q) + 1) slices in total, and
the slice of row i at bit position j is the length-n vector congruent to
(r + 2^j s_i s) mod q for the fresh uniform vector r of that (i, j); the
flanking power facts characterize the slice count as one more than the
floor logarithm. -/
theorem C2_evalkey_structure (q n : ℕ) (hq : 1 ≤ q) (evR : ℕ → ℕ → ℕ → ℕ)
    (s : List ℕ) :
    (genEvalKey q n evR s).length = n ∧
    (∀ row ∈ genEvalKey q n evR s, row.length = numBits q) ∧
    ((genEvalKey q n evR s).map List.length).sum = n * numBits q ∧
    2 ^ (numBits q - 1) ≤ q ∧ q < 2 ^ numBits q ∧
    (∀ i < n, ∀ j < numBits q,
      ((genEvalKey q n evR s).getD i []).getD j [] =
        (List.range n).map (fun k =>
          (evR i j k + 2 ^ j * s.getD i 0 * s.getD k 0) % q)) := by
  refine ⟨by simp [genEvalKey], ?_, ?_, ?_, ?_, ?_⟩
  · intro row hrow
    simp only [genEvalKey, List.mem_map] at hrow
    obtain ⟨i, _, rfl⟩ := hrow
    simp
  · simp only [genEvalKey, List.map_map]
    have hconst : (List.length ∘ fun i => (List.range (numBits q)).map (fun j =>
        (List.range n).map (fun k =>
          (evR i j k + 2 ^ j * s.getD i 0 * s.getD k 0) % q))) =
        fun _ => numBits q := by
      funext i
      simp
    rw [hconst]
    simp [List.map_const', List.sum_replicate, Nat.mul_comm]
  · simpa [numBits] using log2fuel_lower q q hq le_rfl
  · simpa [numBits] using log2fuel_upper q q le_rfl
  · intro i hi j hj
    simp only [genEvalKey]
    rw [getD_map_range _ _ n i hi, getD_map_range _ _ (numBits q) j hj]

/-- C2 (witness): the amended structure theorem instantiated at a
concrete modulus, dimension and randomness. -/
theorem C2_evalkey_structure_witness :
    ((genEvalKey 2 1 (fun _ _ _ => 0) []).getD 0 []).getD 0 [] = [0] := by
  have h := (C2_evalkey_structure 2 1 (by decide) (fun _ _ _ => 0) []).2.2.2.2.2
    0 (by decide) 0 (by decide)
  rw [h]
  decide

/-- C3: multiply_ciphertexts is bootstrap applied to the flattened tensor
product mod q (bootstrap runs unconditionally), and the result has length
n + 1. -/
theorem C3_multiply_bootstrap (P : PublicParams) (K : KeyBundle) (hK : KBWF P K)
    (ct1 ct2 : List ℕ) (h1 : ct1.length = P.n + 1) (h2 : ct2.length = P.n + 1) :
    multiplyCiphertexts P K ct1 ct2 = bootstrap P K (tensorFlatten P.q ct1 ct2) ∧
    (multiplyCiphertexts P K ct1 ct2).length = P.n + 1 := by
  obtain ⟨hb1, hb2, he1, he2⟩ := hK
  exact ⟨rfl, bootstrap_length P K _ he1 he2⟩

/-- C3 (witness): the multiplication theorem instantiated at concrete
parameters, keys and ciphertexts. -/
theorem C3_multiply_bootstrap_witness :
    (multiplyCiphertexts (mkParams 1 3 2 1) ⟨[0], ([[0]], [0]), [[[0], [0]]], [[0]]⟩
      [0, 0] [0, 0]).length = 2 :=
  (C3_multiply_bootstrap (mkParams 1 3 2 1) ⟨[0], ([[0]], [0]), [[[0], [0]]], [[0]]⟩
    (by unfold KBWF; decide) [0, 0] [0, 0] (by decide) (by decide)).2

/-- C4: the source has no explicit length check in add_ciphertexts; on
the mismatched input pair of lengths two and one, numpy broadcasting
silently returns a pointwise result instead of failing, contradicting the
claimed fail-fast behaviour (the modulus is the default 40961). -/
theorem C4_add_broadcasts : addCiphertexts 40961 [0, 0] [3] = some [3, 3] := by
  decide

/-- C8: bootstrap is a deterministic pure function of its ciphertext and
KeyBundle arguments: the embedding, translated from a source body that
samples no randomness and touches no state, sends equal inputs to equal
outputs. -/
theorem C8_bootstrap_deterministic (P : PublicParams) (K1 K2 : KeyBundle)
    (ct1 ct2 : List ℕ) (hct : ct1 = ct2) (hK : K1 = K2) :
    bootstrap P K1 ct1 = bootstrap P K2 ct2 := by
  rw [hct, hK]

/-- C8 (witness): determinism instantiated at a concrete invocation. -/
theorem C8_bootstrap_deterministic_witness :
    bootstrap (mkParams 1 3 2 1) ⟨[0], ([[0]], [0]), [[[0], [0]]], [[0]]⟩ [0, 5] =
      bootstrap (mkParams 1 3 2 1) ⟨[0], ([[0]], [0]), [[[0], [0]]], [[0]]⟩ [0, 5] :=
  C8_bootstrap_deterministic (mkParams 1 3 2 1) _ _ _ _ rfl rfl

/-- C9: bootstrap depends on nothing but the first n coordinates and the
last coordinate of its input vector: inputs of length at least n + 1
agreeing there produce identical outputs, so the tensor-product entries
beyond the first n (except the final scalar) are ignored. -/
theorem C9_bootstrap_local (P : PublicParams) (K : KeyBundle) (ct1 ct2 : List ℕ)
    (h1 : P.n + 1 ≤ ct1.length) (h2 : P.n + 1 ≤ ct2.length)
    (hfirst : ∀ i < P.n, ct1.getD i 0 = ct2.getD i 0)
    (hlast : ct1.getLast?.getD 0 = ct2.getLast?.getD 0) :
    bootstrap P K ct1 = bootstrap P K ct2 := by
  simp only [bootstrap]
  rw [hlast]
  congr 1
  apply foldl_congr_mem
  intro x i hi
  have hin : i < P.n := by simpa using hi
  rw [getD_map_dropLast _ ct1 i (by omega), getD_map_dropLast _ ct2 i (by omega),
    hfirst i hin]

/-- C9 (witness): locality instantiated on two concrete inputs of
different lengths agreeing on the read coordinates. -/
theorem C9_bootstrap_local_witness :
    bootstrap (mkParams 1 3 2 1) ⟨[0], ([[0]], [0]), [[[0], [0]]], [[0]]⟩ [0, 5] =
      bootstrap (mkParams 1 3 2 1) ⟨[0], ([[0]], [0]), [[[0], [0]]], [[0]]⟩ [0, 2, 5] :=
  C9_bootstrap_local (mkParams 1 3 2 1) _ _ _ (by decide) (by decide) (by decide)
    (by decide)

/-- C10: homomorphic addition is commutative on equal-length ciphertext
vectors with canonical entries. -/
theorem C10_add_comm (q : ℕ) (ct1 ct2 : List ℕ) (hlen : ct1.length = ct2.length)
    (h1 : ∀ x ∈ ct1, x < q) (h2 : ∀ x ∈ ct2, x < q) :
    addCiphertexts q ct1 ct2 = addCiphertexts q ct2 ct1 := by
  unfold addCiphertexts
  rw [if_pos hlen, if_pos hlen.symm,
    List.zipWith_comm_of_comm (fun a b => (a + b) % q)
      (fun a b => by show (a + b) % q = (b + a) % q; rw [Nat.add_comm]) ct1 ct2]

/-- C10 (witness): commutativity instantiated at concrete ciphertexts. -/
theorem C10_add_comm_witness :
    addCiphertexts 5 [1, 2] [3, 4] = addCiphertexts 5 [3, 4] [1, 2] :=
  C10_add_comm 5 [1, 2] [3, 4] (by decide) (by decide) (by decide)

/-- C5: decrypt recovers one bit per ciphertext in input order through the
rounding formula of decryptBit, packs consecutive groups of eight bits
big-endian into characters, silently drops a trailing incomplete group,
and so returns exactly floor(k / 8) characters, never an error. -/
theorem C5_decrypt_structure (P : PublicParams) (s : List ℕ) (cts : List (List ℕ))
    (hs : s.length = P.n) (hct : ∀ ct ∈ cts, ct.length = P.n + 1) :
    (decrypt P s cts).length = cts.length / 8 ∧
    ∀ j, 8 * j + 8 ≤ cts.length →
      (decrypt P s cts).getD j 0 =
        128 * decryptBit P s (cts.getD (8 * j) []) +
        64 * decryptBit P s (cts.getD (8 * j + 1) []) +
        32 * decryptBit P s (cts.getD (8 * j + 2) []) +
        16 * decryptBit P s (cts.getD (8 * j + 3) []) +
        8 * decryptBit P s (cts.getD (8 * j + 4) []) +
        4 * decryptBit P s (cts.getD (8 * j + 5) []) +
        2 * decryptBit P s (cts.getD (8 * j + 6) []) +
        decryptBit P s (cts.getD (8 * j + 7) []) := by
  constructor
  · simp only [decrypt]
    rw [toBytes_length]
    simp
  · intro j hj
    simp only [decrypt]
    rw [toBytes_getD _ j (by simpa using hj)]
    have hmap : ∀ k, k < cts.length →
        (cts.map (fun ct => decryptBit P s ct)).getD k 0 =
          decryptBit P s (cts.getD k []) := by
      intro k hk
      rw [List.getD_eq_getElem _ _ (by simpa using hk), List.getElem_map,
        List.getD_eq_getElem _ _ hk]
    rw [hmap (8 * j) (by omega), hmap (8 * j + 1) (by omega), hmap (8 * j + 2) (by omega),
      hmap (8 * j + 3) (by omega), hmap (8 * j + 4) (by omega), hmap (8 * j + 5) (by omega),
      hmap (8 * j + 6) (by omega), hmap (8 * j + 7) (by omega)]

/-- C5 (witness): the structure theorem instantiated on a single
ciphertext, whose lone bit forms an incomplete byte and is dropped. -/
theorem C5_decrypt_structure_witness :
    (decrypt (mkParams 1 5 2 1) [0] [[0, 0]]).length = 0 := by
  have h := (C5_decrypt_structure (mkParams 1 5 2 1) [0] [[0, 0]] (by decide)
    (by decide)).1
  simpa using h

/-- C6: encrypt yields exactly 8 k ciphertexts for a message of k
characters below 256, each ciphertext of length n + 1, the i-th one
encrypting the i-th message bit in order-preserving big-endian
eight-bits-per-character order with the i-th randomness draw. -/
theorem C6_encrypt_structure (P : PublicParams) (A : List (List ℕ)) (b : List ℕ)
    (e1R : ℕ → ℕ → ℤ) (e2R : ℕ → ℤ) (rR : ℕ → ℕ → ℕ) (M : List ℕ)
    (hM : ∀ c ∈ M, c < 256) :
    (encrypt P A b e1R e2R rR M).length = 8 * M.length ∧
    (∀ ct ∈ encrypt P A b e1R e2R rR M, ct.length = P.n + 1) ∧
    (∀ i < 8 * M.length,
      (encrypt P A b e1R e2R rR M).getD i [] =
        lweEncryptBit P A b (e1R i) (e2R i) (rR i)
          (M.getD (i / 8) 0 / 2 ^ (7 - i % 8) % 2)) := by
  have hlen := msgBits_length M hM
  refine ⟨?_, ?_, ?_⟩
  · rw [encrypt_length, hlen]
  · intro ct hct
    simp only [encrypt, List.mem_map, List.mem_range] at hct
    obtain ⟨i, _, rfl⟩ := hct
    exact lweEncryptBit_length P A b _ _ _ _
  · intro i hi
    rw [encrypt_getD P A b e1R e2R rR M i (by omega), msgBits_getD M hM i hi]

/-- C6 (witness): the message of the two characters of the concrete
scenario yields sixteen ciphertexts. -/
theorem C6_encrypt_structure_witness :
    (encrypt (mkParams 1 3 2 1) [[0]] [0] (fun _ _ => 0) (fun _ => 0) (fun _ _ => 0)
      [72, 105]).length = 16 := by
  have h := (C6_encrypt_structure (mkParams 1 3 2 1) [[0]] [0] (fun _ _ => 0)
    (fun _ => 0) (fun _ _ => 0) [72, 105] (by decide)).1
  simpa using h

/-- C7: canonical-representative invariant. Provided the modulus exceeds
the bootstrap precision range, every entry of every vector returned by
encrypt, add_ciphertexts, bootstrap and multiply_ciphertexts (on inputs
with canonical entries), and every entry of the public, evaluation and
bootstrap keys built by generate_keys (the uniform sampler for A drawing
below q), lies in the interval from 0 inclusive to q exclusive. -/
theorem C7_canonical_range (P : PublicParams) (hbp : 2 ^ P.bootstrap_precision < P.q) :
    (∀ A b e1R e2R rR M, ∀ ct ∈ encrypt P A b e1R e2R rR M, ∀ x ∈ ct, x < P.q) ∧
    (∀ ct1 ct2 res, (∀ x ∈ ct1, x < P.q) → (∀ x ∈ ct2, x < P.q) →
      addCiphertexts P.q ct1 ct2 = some res → ∀ x ∈ res, x < P.q) ∧
    (∀ K ct, (∀ x ∈ ct, x < P.q) → ∀ x ∈ bootstrap P K ct, x < P.q) ∧
    (∀ K ct1 ct2, (∀ x ∈ ct1, x < P.q) → (∀ x ∈ ct2, x < P.q) →
      ∀ x ∈ multiplyCiphertexts P K ct1 ct2, x < P.q) ∧
    (∀ sR AR eR evR bsR, (∀ i j, AR i j < P.q) →
      (∀ row ∈ (generateKeys P sR AR eR evR bsR).public_key.1, ∀ x ∈ row, x < P.q) ∧
      (∀ x ∈ (generateKeys P sR AR eR evR bsR).public_key.2, x < P.q) ∧
      (∀ mat ∈ (generateKeys P sR AR eR evR bsR).eval_key,
        ∀ row ∈ mat, ∀ x ∈ row, x < P.q) ∧
      (∀ row ∈ (generateKeys P sR AR eR evR bsR).bootstrap_key, ∀ x ∈ row, x < P.q)) := by
  have hq : 0 < P.q := lt_of_le_of_lt (Nat.zero_le _) hbp
  refine ⟨?_, ?_, ?_, ?_, ?_⟩
  · intro A b e1R e2R rR M ct hct
    simp only [encrypt, List.mem_map, List.mem_range] at hct
    obtain ⟨i, _, rfl⟩ := hct
    exact lweEncryptBit_entries P A b _ _ _ _ hq
  · intro ct1 ct2 res _ _ h
    exact addCiphertexts_entries P.q hq ct1 ct2 res h
  · intro K ct _
    exact bootstrap_entries P K ct hbp
  · intro K ct1 ct2 _ _
    exact bootstrap_entries P K _ hbp
  · intro sR AR eR evR bsR hAR
    refine ⟨?_, ?_, ?_, ?_⟩
    · intro row hrow x hx
      simp only [generateKeys, List.mem_map, List.mem_range] at hrow
      obtain ⟨i, _, rfl⟩ := hrow
      simp only [List.mem_map, List.mem_range] at hx
      obtain ⟨k, _, rfl⟩ := hx
      exact hAR i k
    · intro x hx
      simp only [generateKeys, List.mem_map, List.mem_range] at hx
      obtain ⟨k, _, rfl⟩ := hx
      exact Nat.mod_lt _ hq
    · intro mat hmat row hrow x hx
      simp only [generateKeys, genEvalKey, List.mem_map, List.mem_range] at hmat
      obtain ⟨i, _, rfl⟩ := hmat
      simp only [List.mem_map, List.mem_range] at hrow
      obtain ⟨j, _, rfl⟩ := hrow
      simp only [List.mem_map, List.mem_range] at hx
      obtain ⟨k, _, rfl⟩ := hx
      exact Nat.mod_lt _ hq
    · intro row hrow x hx
      simp only [generateKeys, genBootstrapKey, List.mem_map, List.mem_range] at hrow
      obtain ⟨i, _, rfl⟩ := hrow
      simp only [List.mem_map, List.mem_range] at hx
      obtain ⟨k, _, rfl⟩ := hx
      exact Nat.mod_lt _ hq

/-- C7 (witness): the bootstrap conjunct of the invariant instantiated at
concrete parameters, keys and input. -/
theorem C7_canonical_range_witness :
    (bootstrap (mkParams 1 3 2 1) ⟨[0], ([[0]], [0]), [[[0], [0]]], [[0]]⟩
      [0, 0]).getD 0 0 < 3 := by
  have h := (C7_canonical_range (mkParams 1 3 2 1) (by decide)).2.2.1
    ⟨[0], ([[0]], [0]), [[[0], [0]]], [[0]]⟩ [0, 0] (by decide)
  exact h _ (by decide)

/-- C1 (amended): for keys produced by generate_keys with t = 2 and odd
modulus, and any message of 8-bit characters, if for each encrypted bit
the accumulated noise magnitude (the centered value of (v - u s) mod q
minus scale times the bit) stays below q / (2 t) - 1 / 2 (stated in
integers: twice the magnitude plus one, times t, is below q), then
decrypting the encryption of M with the bundle secret key returns exactly
M. -/
theorem C1_roundtrip_amended (n q bp : ℕ) (hq3 : 3 ≤ q) (hodd : q % 2 = 1)
    (sR : ℕ → ℕ) (AR : ℕ → ℕ → ℕ) (eR : ℕ → ℤ) (evR : ℕ → ℕ → ℕ → ℕ)
    (bsR : ℕ → ℕ → ℕ) (e1R : ℕ → ℕ → ℤ) (e2R : ℕ → ℤ) (rR : ℕ → ℕ → ℕ)
    (M : List ℕ) (hM : ∀ c ∈ M, c < 256)
    (K : KeyBundle) (hK : K = generateKeys (mkParams n q 2 bp) sR AR eR evR bsR)
    (cts : List (List ℕ))
    (hcts : cts = encrypt (mkParams n q 2 bp) K.public_key.1 K.public_key.2 e1R e2R rR M)
    (hnoise : ∀ i < (msgBits M).length,
      (2 * (noiseOf q (q / 2) K.secret_key (cts.getD i [])
        ((msgBits M).getD i 0)).natAbs + 1) * 2 < q) :
    decrypt (mkParams n q 2 bp) K.secret_key cts = M := by
  subst hcts
  have hmain : (encrypt (mkParams n q 2 bp) K.public_key.1 K.public_key.2
      e1R e2R rR M).map (fun ct => decryptBit (mkParams n q 2 bp) K.secret_key ct) =
      msgBits M := by
    apply List.ext_getElem
    · rw [List.length_map, encrypt_length]
    · intro i hi1 hi2
      have hienc : i < (encrypt (mkParams n q 2 bp) K.public_key.1 K.public_key.2
          e1R e2R rR M).length := by simpa using hi1
      rw [List.getElem_map]
      rw [← List.getD_eq_getElem (encrypt (mkParams n q 2 bp) K.public_key.1
        K.public_key.2 e1R e2R rR M) [] hienc]
      rw [← List.getD_eq_getElem (msgBits M) 0 hi2]
      have hmem : (msgBits M).getD i 0 ∈ msgBits M := by
        rw [List.getD_eq_getElem _ _ hi2]
        exact List.getElem_mem _
      exact decryptBit_correct (mkParams n q 2 bp) (q / 2) K.secret_key _ _
        rfl (by show 2 * (q / 2) + 1 = q; omega) (msgBits_lt_two M _ hmem)
        (hnoise i hi2)
  simp only [decrypt]
  rw [hmain]
  exact toBytes_msgBits M hM

/-- C1 (witness): the amended round trip instantiated on a concrete
bundle, message and randomness with all per-bit noises zero. -/
theorem C1_roundtrip_amended_witness :
    decrypt (mkParams 1 5 2 1)
      (generateKeys (mkParams 1 5 2 1) (fun _ => 0) (fun _ _ => 0) (fun _ => 0)
        (fun _ _ _ => 0) (fun _ _ => 0)).secret_key
      (encrypt (mkParams 1 5 2 1)
        (generateKeys (mkParams 1 5 2 1) (fun _ => 0) (fun _ _ => 0) (fun _ => 0)
          (fun _ _ _ => 0) (fun _ _ => 0)).public_key.1
        (generateKeys (mkParams 1 5 2 1) (fun _ => 0) (fun _ _ => 0) (fun _ => 0)
          (fun _ _ _ => 0) (fun _ _ => 0)).public_key.2
        (fun _ _ => 0) (fun _ => 0) (fun _ _ => 0) [0]) = [0] :=
  C1_roundtrip_amended 1 5 1 (by decide) (by decide) (fun _ => 0) (fun _ _ => 0)
    (fun _ => 0) (fun _ _ _ => 0) (fun _ _ => 0) (fun _ _ => 0) (fun _ => 0)
    (fun _ _ => 0) [0] (by decide) _ rfl _ rfl (by decide)

/-- C1 (counterexample): the round-trip claim with the bound q / (2 t) as
stated is false. At n = 1, q = 5, t = 2 with a KeyBundle produced by
generate_keys from concrete randomness, and the one-character message of
code 128, every encrypted bit satisfies the stated bound
2 t |noise| < q, yet decryption returns the character 0 instead: the
first bit carries centered noise -1, and |-1| is below q / (2 t) = 1.25
while round(((v - u s) mod q) t / q) flips the bit. -/
theorem C1_counterexample :
    (∀ i < (msgBits [128]).length,
      2 * 2 * (noiseOf 5 (5 / 2)
        (generateKeys (mkParams 1 5 2 1) (fun _ => 1) (fun _ _ => 0) (fun _ => 0)
          (fun _ _ _ => 0) (fun _ _ => 0)).secret_key
        ((encrypt (mkParams 1 5 2 1)
          (generateKeys (mkParams 1 5 2 1) (fun _ => 1) (fun _ _ => 0) (fun _ => 0)
            (fun _ _ _ => 0) (fun _ _ => 0)).public_key.1
          (generateKeys (mkParams 1 5 2 1) (fun _ => 1) (fun _ _ => 0) (fun _ => 0)
            (fun _ _ _ => 0) (fun _ _ => 0)).public_key.2
          (fun i _ => if i = 0 then 1 else 0) (fun _ => 0) (fun _ _ => 0)
          [128]).getD i [])
        ((msgBits [128]).getD i 0)).natAbs < 5) ∧
    decrypt (mkParams 1 5 2 1)
      (generateKeys (mkParams 1 5 2 1) (fun _ => 1) (fun _ _ => 0) (fun _ => 0)
        (fun _ _ _ => 0) (fun _ _ => 0)).secret_key
      (encrypt (mkParams 1 5 2 1)
        (generateKeys (mkParams 1 5 2 1) (fun _ => 1) (fun _ _ => 0) (fun _ => 0)
          (fun _ _ _ => 0) (fun _ _ => 0)).public_key.1
        (generateKeys (mkParams 1 5 2 1) (fun _ => 1) (fun _ _ => 0) (fun _ => 0)
          (fun _ _ _ => 0) (fun _ _ => 0)).public_key.2
        (fun i _ => if i = 0 then 1 else 0) (fun _ => 0) (fun _ _ => 0)
        [128]) ≠ [128] := by
  constructor
  · decide
  · decide
